import Mathlib

/-!
Verification development for the `hrmonitor` heart-rate analysis pipeline.

The Python source (`hrmonitor.py`) is shallowly embedded here:

* Raw CSV fields become the inductive `HRM.Field`: a field either parses as a
  float (`num q`, modelled as a rational), is the literal token `NaN`
  (rejected by `HRMonitor.is_float`), or fails to parse at all (`bad`).
  Floating-point values are modelled as exact rationals; the structural
  claims proved below do not depend on rounding of individual arithmetic
  operations.
* Exceptions become the `Except` monad with the error taxonomy `ParseError`.
* numpy primitives used by the code are embedded by their documented
  semantics: `np.correlate(v, v, 'full')` restricted to its non-negative-lag
  half is `dotShift`, `np.argmax` (first index attaining the maximum) is
  `argmax`, and `np.round(x, 5)` (round half to even at 5 decimal digits) is
  `round5`.
-/

namespace HRM

/-- A raw CSV field after `str.split(',')`: either a string that `float(...)`
parses (value `q`), the literal token `NaN` (parsed by `float` but rejected
by `HRMonitor.is_float`), or an unparseable string. -/
inductive Field where
  | num (q : ℚ)
  | nan
  | bad
deriving DecidableEq, Repr

/-- One raw record: the list of fields on one line. -/
abbrev Record := List Field

/-- `HRMonitor.is_float`: true when `float(input)` succeeds and the string is
not the literal `NaN`. -/
def is_float : Field → Bool
  | .num _ => true
  | .nan => false
  | .bad => false

/-- The value `float(field)` produces; only consulted after `is_float`
succeeded, so the default on the other constructors is never observed. -/
def toFloat : Field → ℚ
  | .num q => q
  | .nan => 0
  | .bad => 0

/-- Error taxonomy of the validator (`ValueError` for empty input, the
`ValueError` raised by `parse_line` for a wrong field count, and the
`RuntimeError` raised by `repair_line`), with the 1-based row numbers the
exception messages carry. -/
inductive ParseError where
  | emptyInput
  | malformedRecord (row : ℕ)
  | unrepairableRecord (row : ℕ)
deriving DecidableEq, Repr

/-- Validity test `repair_line` applies to a neighbouring line:
`len(line) == 2 and is_float(line[0]) and is_float(line[1])`. -/
def recordValid (l : Record) : Bool :=
  l.length == 2 && is_float (l.getD 0 .bad) && is_float (l.getD 1 .bad)

/-- `HRMonitor.repair_line`: interpolated repair of line `line_num`
(0-based) of `data`.  Succeeds with the arithmetic means of the neighbouring
time and voltage values when the line is strictly interior and both
neighbours are valid; otherwise raises (1-based row number). -/
def repair_line (data : List Record) (line_num : ℕ) :
    Except ParseError (ℚ × ℚ) :=
  if 0 < line_num ∧ line_num < data.length - 1 then
    let prev_line := data.getD (line_num - 1) []
    let next_line := data.getD (line_num + 1) []
    if recordValid prev_line ∧ recordValid next_line then
      .ok ((toFloat (prev_line.getD 0 .bad) + toFloat (next_line.getD 0 .bad)) / 2,
           (toFloat (prev_line.getD 1 .bad) + toFloat (next_line.getD 1 .bad)) / 2)
    else .error (.unrepairableRecord (line_num + 1))
  else .error (.unrepairableRecord (line_num + 1))

/-- `HRMonitor.parse_line`: a line with a field count other than two raises
`ValueError` (1-based row); a line with a field that is not a well-formed
float goes to interpolated repair; otherwise both fields are parsed. -/
def parse_line (data : List Record) (line : Record) (line_num : ℕ) :
    Except ParseError (ℚ × ℚ) :=
  if line.length ≠ 2 then .error (.malformedRecord (line_num + 1))
  else if line.any (fun v => !is_float v) then repair_line data line_num
  else .ok (toFloat (line.getD 0 .bad), toFloat (line.getD 1 .bad))

/-- The `for i, line in enumerate(data)` loop of `HRMonitor.parse_data`,
collecting the `(time, voltage)` pair of each line; the first exception
aborts the loop. -/
def parseLoop (data : List Record) : ℕ → List Record → Except ParseError (List (ℚ × ℚ))
  | _, [] => .ok []
  | i, line :: rest =>
    match parse_line data line i with
    | .error e => .error e
    | .ok tv =>
      match parseLoop data (i + 1) rest with
      | .error e => .error e
      | .ok l => .ok (tv :: l)

/-- `HRMonitor.parse_data`: rejects empty input, parses every line, then
scales time by `time_units` and voltage by `voltage_units`.  The third
component is the `outside_range` flag: the loop sets it as soon as a raw
(pre-scaling) voltage has magnitude ≥ 300, which is exactly `List.any` over
the raw voltages. -/
def parse_data (data : List Record) (tu vu : ℚ) :
    Except ParseError (List ℚ × List ℚ × Bool) :=
  if data.length = 0 then .error .emptyInput
  else
    match parseLoop data 0 data with
    | .error e => .error e
    | .ok tvs =>
      .ok ((tvs.map Prod.fst).map (· * tu),
           (tvs.map Prod.snd).map (· * vu),
           tvs.any (fun tv => decide (300 ≤ |tv.2|)))

/-! ### Periodicity estimation (`HRMonitor.get_peak_interval`) -/

/-- Non-negative lag `lag` of `np.correlate(v, v, mode='full')`, i.e. the
entry `raw_corrl[raw_corrl.size // 2 + lag]`: the dot product of `v` with
itself shifted by `lag`, `Σ_i v[i] * v[i + lag]`. -/
def dotShift (v : List ℚ) (lag : ℕ) : ℚ :=
  ((v.drop lag).zip v).foldr (fun p acc => p.1 * p.2 + acc) 0

/-- `sq_cor` of `get_peak_interval`: the squared non-negative-lag half of the
autocorrelation, one entry per lag `0 .. v.length - 1`. -/
def sqCor (v : List ℚ) : List ℚ :=
  (List.range v.length).map (fun lag => (dotShift v lag) ^ 2)

/-- The `for i in range(sq_cor.size)` loop of `get_peak_interval`: scans the
remaining entries with running index `i`, updating `after_peak := i` and
`prev := sq_cor[i]` while `sq_cor[i] <= prev`, and breaking (returning the
accumulated `after_peak`) at the first strict increase. -/
def afterPeakAux : List ℚ → ℚ → ℕ → ℕ → ℕ
  | [], _, ap, _ => ap
  | x :: rest, prev, ap, i => if x ≤ prev then afterPeakAux rest x i (i + 1) else ap

/-- `after_peak` as computed by `get_peak_interval`: the loop starts with
`prev = sq_cor[0]`, `after_peak = 0`, index `0`. -/
def after_peak (sq : List ℚ) : ℕ :=
  afterPeakAux sq (sq.headD 0) 0 0

/-- Maximum of a list of rationals (`0` on the empty list, which the code
never hits). -/
def listMax : List ℚ → ℚ
  | [] => 0
  | [x] => x
  | x :: y :: rest => max x (listMax (y :: rest))

/-- Index of the first element satisfying `p` (the list's length if none
does). -/
def firstIdxSat (p : ℚ → Bool) : List ℚ → ℕ
  | [] => 0
  | x :: rest => if p x then 0 else firstIdxSat p rest + 1

/-- `np.argmax`: the first index attaining the maximum value. -/
def argmax (l : List ℚ) : ℕ :=
  firstIdxSat (fun y => decide (listMax l ≤ y)) l

/-- `HRMonitor.get_peak_interval time data`: `time` is the full recording's
time array (`self.time`), `data` the voltage segment under analysis.
Returns `(interval_val, interval_loc)` where
`interval_loc = after_peak + argmax(sq_cor[after_peak:])` and
`interval_val = time[interval_loc]`. -/
def get_peak_interval (time : List ℚ) (data : List ℚ) : ℚ × ℕ :=
  let sq := sqCor data
  let ap := after_peak sq
  let loc := ap + argmax (sq.drop ap)
  (time.getD loc 0, loc)

/-! ### Windowed heart rate (`HRMonitor.get_mean_hr`) -/

/-- Round half to even at integer precision (the tie-breaking rule of
`np.round`). -/
def roundHalfEven (q : ℚ) : ℤ :=
  if q - ⌊q⌋ < 1 / 2 then ⌊q⌋
  else if 1 / 2 < q - ⌊q⌋ then ⌊q⌋ + 1
  else if ⌊q⌋ % 2 = 0 then ⌊q⌋ else ⌊q⌋ + 1

/-- `x.round(5)` of numpy: round half to even at 5 decimal digits. -/
def round5 (q : ℚ) : ℚ :=
  (roundHalfEven (q * 100000) : ℚ) / 100000

/-- The `for i, time in enumerate(self.time)` loop of `get_mean_hr`:
whenever the running time reaches `window_size + prev_time`, emit
`round5 (60 / interval)` of the voltage slice `voltage[prev_index:i]`
(the interval estimate consults the full `time` array) and restart the
window at the current sample. -/
def meanHrAux (time voltage : List ℚ) (ws : ℚ) :
    List (ℕ × ℚ) → ℕ → ℚ → List ℚ
  | [], _, _ => []
  | (i, t) :: rest, prev_index, prev_time =>
    if ws + prev_time ≤ t then
      round5 (60 / (get_peak_interval time ((voltage.drop prev_index).take (i - prev_index))).1)
        :: meanHrAux time voltage ws rest i t
    else meanHrAux time voltage ws rest prev_index prev_time

/-- `HRMonitor.get_mean_hr`: the loop starts with `prev_index = 0` and
`prev_time = self.time[0]`. -/
def get_mean_hr (time voltage : List ℚ) (ws : ℚ) : List ℚ :=
  meanHrAux time voltage ws time.enum 0 (time.headD 0)

/-- The complete-window index ranges `(prev_index, i)` the `get_mean_hr`
loop closes, separated from the rate computation: a window closes whenever
the running time reaches or exceeds the window start time plus the window
size; the trailing partial window is never emitted. -/
def windowsAux (ws : ℚ) : List (ℕ × ℚ) → ℕ → ℚ → List (ℕ × ℕ)
  | [], _, _ => []
  | (i, t) :: rest, prev_index, prev_time =>
    if ws + prev_time ≤ t then (prev_index, i) :: windowsAux ws rest i t
    else windowsAux ws rest prev_index prev_time

/-- The complete windows of a recording, starting at the first sample. -/
def windows (time : List ℚ) (ws : ℚ) : List (ℕ × ℕ) :=
  windowsAux ws time.enum 0 (time.headD 0)

/-! ### Beat de-duplication (`HRMonitor.locate_peaks`) -/

/-- Position of the first element of a list satisfying `p` (`none` if no
element does). -/
def scanIdx (p : ℕ → Bool) : List ℕ → Option ℕ
  | [] => none
  | x :: rest => if p x then some 0 else (scanIdx p rest).map (· + 1)

/-- The inner `for j in range(i+1, num_peaks)` scan of the de-duplication
loop: it leaves `i` at the first index from `i1` on whose peak lies
strictly more than `thre` samples beyond the kept peak `current`, or at
`num_peaks - 1` when every remaining peak is within `thre`. -/
def nextKept (peaks : List ℕ) (thre : ℤ) (current : ℕ) (i1 : ℕ) : ℕ :=
  match scanIdx (fun x => decide (thre < (x : ℤ) - (current : ℤ))) (peaks.drop i1) with
  | some k => i1 + k
  | none => peaks.length - 1

/-- The de-duplication `while i < (num_peaks - 1)` loop of `locate_peaks`,
run with `fuel` at least `peaks.length` (the index strictly increases every
iteration, so the loop runs fewer than `peaks.length` times): keep
`peaks[i]`, then continue from the index the inner scan leaves behind. -/
def dedupAux (peaks : List ℕ) (thre : ℤ) : ℕ → ℕ → List ℕ
  | 0, _ => []
  | fuel + 1, i =>
    if i < peaks.length - 1 then
      peaks.getD i 0 ::
        dedupAux peaks thre fuel (nextKept peaks thre (peaks.getD i 0) (i + 1))
    else []

/-- The de-duplication pass of `locate_peaks` over the sorted candidate
indices `peaks` with threshold `thre = interval_loc // 4` (an empty
candidate array is returned unchanged). -/
def dedup (peaks : List ℕ) (thre : ℤ) : List ℕ :=
  dedupAux peaks thre peaks.length 0

/-- `self.num_beats`: the number of kept beat locations (`self.beats` is
`self.time[self.peaks]`, of the same size as the kept index array). -/
def numBeats (peaks : List ℕ) (thre : ℤ) : ℕ :=
  (dedup peaks thre).length

/-! ### Whole-recording attributes and the analysis pipeline -/

/-- `HRMonitor.get_duration`: `self.time[-1] - self.time[0]`. -/
def duration (time : List ℚ) : ℚ :=
  time.getLastD 0 - time.headD 0

/-- The portion of `HRMonitor.__init__` relevant to the time-scaling
claims: validate/scale the raw records, then compute the duration, the
global peak interval, and the windowed mean heart rates. -/
def analyze (data : List Record) (tu vu ws : ℚ) :
    Except ParseError (ℚ × ℚ × List ℚ) :=
  match parse_data data tu vu with
  | .error e => .error e
  | .ok (time, voltage, _) =>
    .ok (duration time, (get_peak_interval time voltage).1, get_mean_hr time voltage ws)

/-! ### Helper lemmas about the validator -/

lemma parse_line_of_valid (data : List Record) (line : Record) (j : ℕ)
    (h : recordValid line = true) :
    parse_line data line j = .ok (toFloat (line.getD 0 .bad), toFloat (line.getD 1 .bad)) := by
  simp only [recordValid, Bool.and_eq_true, beq_iff_eq] at h
  obtain ⟨⟨hlen, h0⟩, h1⟩ := h
  obtain ⟨a, b, rfl⟩ := List.length_eq_two.mp hlen
  simp only [List.getD_cons_zero, List.getD_cons_succ] at h0 h1
  simp [parse_line, h0, h1]

lemma parseLoop_ok_of_all (data : List Record) :
    ∀ (rows : List Record) (start : ℕ),
      (∀ j, j < rows.length → ∃ tv, parse_line data (rows.getD j []) (start + j) = .ok tv) →
      ∃ tvs, parseLoop data start rows = .ok tvs ∧ tvs.length = rows.length ∧
        ∀ j, j < rows.length →
          parse_line data (rows.getD j []) (start + j) = .ok (tvs.getD j (0, 0)) := by
  intro rows
  induction rows with
  | nil =>
    intro start _
    exact ⟨[], rfl, rfl, by intro j hj; simp at hj⟩
  | cons line rest ih =>
    intro start h
    obtain ⟨tv, htv⟩ := h 0 (by simp)
    simp only [List.getD_cons_zero, Nat.add_zero] at htv
    obtain ⟨tvs, hloop, hlen, hall⟩ := ih (start + 1) (by
      intro j hj
      have h' := h (j + 1) (by simpa using Nat.succ_lt_succ hj)
      have e : start + (j + 1) = start + 1 + j := by omega
      rw [e] at h'
      simpa using h')
    refine ⟨tv :: tvs, ?_, by simpa using hlen, ?_⟩
    · simp [parseLoop, htv, hloop]
    · intro j hj
      cases j with
      | zero => simpa using htv
      | succ j =>
        have e : start + (j + 1) = start + 1 + j := by omega
        rw [List.getD_cons_succ, List.getD_cons_succ, e]
        exact hall j (by simpa using Nat.lt_of_succ_lt_succ hj)

lemma parseLoop_ok_elim (data : List Record) :
    ∀ (rows : List Record) (start : ℕ) (tvs : List (ℚ × ℚ)),
      parseLoop data start rows = .ok tvs →
      tvs.length = rows.length ∧
        ∀ j, j < rows.length →
          parse_line data (rows.getD j []) (start + j) = .ok (tvs.getD j (0, 0)) := by
  intro rows
  induction rows with
  | nil =>
    intro start tvs h
    simp only [parseLoop] at h
    cases h
    exact ⟨rfl, by intro j hj; simp at hj⟩
  | cons line rest ih =>
    intro start tvs h
    simp only [parseLoop] at h
    cases hline : parse_line data line start with
    | error e => rw [hline] at h; cases h
    | ok tv =>
      rw [hline] at h
      cases hloop : parseLoop data (start + 1) rest with
      | error e => rw [hloop] at h; cases h
      | ok tvs' =>
        rw [hloop] at h
        cases h
        obtain ⟨hlen, hall⟩ := ih (start + 1) tvs' hloop
        refine ⟨by simpa using hlen, ?_⟩
        intro j hj
        cases j with
        | zero => simpa using hline
        | succ j =>
          have e : start + (j + 1) = start + 1 + j := by omega
          rw [List.getD_cons_succ, List.getD_cons_succ, e]
          exact hall j (by simpa using Nat.lt_of_succ_lt_succ hj)

lemma parseLoop_err_of_first (data : List Record) :
    ∀ (rows : List Record) (start j : ℕ) (e : ParseError), j < rows.length →
      parse_line data (rows.getD j []) (start + j) = .error e →
      (∀ j', j' < j → ∃ tv, parse_line data (rows.getD j' []) (start + j') = .ok tv) →
      parseLoop data start rows = .error e := by
  intro rows
  induction rows with
  | nil => intro start j e hj; simp at hj
  | cons line rest ih =>
    intro start j e hj herr hok
    cases j with
    | zero =>
      simp only [List.getD_cons_zero, Nat.add_zero] at herr
      simp [parseLoop, herr]
    | succ j =>
      obtain ⟨tv, htv⟩ := hok 0 (Nat.succ_pos j)
      simp only [List.getD_cons_zero, Nat.add_zero] at htv
      have herr' : parse_line data (rest.getD j []) (start + 1 + j) = .error e := by
        have e1 : start + 1 + j = start + (j + 1) := by omega
        rw [e1]
        simpa using herr
      have hrec := ih (start + 1) j e (by simpa using Nat.lt_of_succ_lt_succ hj) herr' (by
        intro j' hj'
        have h' := hok (j' + 1) (by simpa using Nat.succ_lt_succ hj')
        have e1 : start + (j' + 1) = start + 1 + j' := by omega
        rw [e1] at h'
        simpa using h')
      simp [parseLoop, htv, hrec]

lemma parseLoop_err_of_exists (data : List Record) :
    ∀ (rows : List Record) (start j : ℕ), j < rows.length →
      (∀ tv, parse_line data (rows.getD j []) (start + j) ≠ .ok tv) →
      ∃ e, parseLoop data start rows = .error e := by
  intro rows
  induction rows with
  | nil => intro start j hj _; simp at hj
  | cons line rest ih =>
    intro start j hj hne
    cases hline : parse_line data line start with
    | error e => exact ⟨e, by simp [parseLoop, hline]⟩
    | ok tv =>
      cases j with
      | zero =>
        refine absurd hline (by simpa using hne tv)
      | succ j =>
        obtain ⟨e, he⟩ := ih (start + 1) j (by simpa using Nat.lt_of_succ_lt_succ hj) (by
          intro tv' h'
          refine hne tv' ?_
          have e1 : start + (j + 1) = start + 1 + j := by omega
          rw [List.getD_cons_succ, e1]
          exact h')
        exact ⟨e, by simp [parseLoop, hline, he]⟩

lemma getD_map_fst_mul (l : List (ℚ × ℚ)) (c : ℚ) :
    ∀ i, i < l.length → ((l.map Prod.fst).map (· * c)).getD i 0 = (l.getD i (0, 0)).1 * c := by
  induction l with
  | nil => intro i hi; simp at hi
  | cons p rest ih =>
    intro i hi
    cases i with
    | zero => simp
    | succ i => simpa using ih i (by simpa using Nat.lt_of_succ_lt_succ hi)

lemma getD_map_snd_mul (l : List (ℚ × ℚ)) (c : ℚ) :
    ∀ i, i < l.length → ((l.map Prod.snd).map (· * c)).getD i 0 = (l.getD i (0, 0)).2 * c := by
  induction l with
  | nil => intro i hi; simp at hi
  | cons p rest ih =>
    intro i hi
    cases i with
    | zero => simp
    | succ i => simpa using ih i (by simpa using Nat.lt_of_succ_lt_succ hi)

lemma any_iff_exists_getD (l : List (ℚ × ℚ)) (p : ℚ × ℚ → Bool) :
    l.any p = true ↔ ∃ j, j < l.length ∧ p (l.getD j (0, 0)) = true := by
  induction l with
  | nil => simp
  | cons x rest ih =>
    simp only [List.any_cons, Bool.or_eq_true, ih, List.length_cons]
    constructor
    · rintro (h | ⟨j, hj, hp⟩)
      · exact ⟨0, by omega, by simpa using h⟩
      · exact ⟨j + 1, by omega, by simpa using hp⟩
    · rintro ⟨j, hj, hp⟩
      cases j with
      | zero => exact Or.inl (by simpa using hp)
      | succ j => exact Or.inr ⟨j, by omega, by simpa using hp⟩

lemma parse_data_of_loop_ok (data : List Record) (tu vu : ℚ) (tvs : List (ℚ × ℚ))
    (hne : data.length ≠ 0) (h : parseLoop data 0 data = .ok tvs) :
    parse_data data tu vu =
      .ok ((tvs.map Prod.fst).map (· * tu), (tvs.map Prod.snd).map (· * vu),
           tvs.any (fun tv => decide (300 ≤ |tv.2|))) := by
  simp [parse_data, hne, h]

lemma parse_data_of_loop_err (data : List Record) (tu vu : ℚ) (e : ParseError)
    (hne : data.length ≠ 0) (h : parseLoop data 0 data = .error e) :
    parse_data data tu vu = .error e := by
  simp [parse_data, hne, h]

lemma parse_data_ok_elim (data : List Record) (tu vu : ℚ) (ts vs : List ℚ) (flag : Bool)
    (h : parse_data data tu vu = .ok (ts, vs, flag)) :
    data.length ≠ 0 ∧ ∃ tvs, parseLoop data 0 data = .ok tvs ∧
      ts = (tvs.map Prod.fst).map (· * tu) ∧ vs = (tvs.map Prod.snd).map (· * vu) ∧
      flag = tvs.any (fun tv => decide (300 ≤ |tv.2|)) := by
  by_cases hne : data.length = 0
  · simp [parse_data, hne] at h
  · refine ⟨hne, ?_⟩
    cases hloop : parseLoop data 0 data with
    | error e => rw [parse_data_of_loop_err data tu vu e hne hloop] at h; cases h
    | ok tvs =>
      rw [parse_data_of_loop_ok data tu vu tvs hne hloop] at h
      cases h
      exact ⟨tvs, rfl, rfl, rfl, rfl⟩

lemma parse_line_repair (data : List Record) (line : Record) (i : ℕ)
    (hlen : line.length = 2) (hbad : line.any (fun v => !is_float v) = true) :
    parse_line data line i = repair_line data i := by
  simp [parse_line, hlen, hbad]

lemma repair_line_ok (data : List Record) (i : ℕ)
    (hint : 0 < i ∧ i < data.length - 1)
    (hprev : recordValid (data.getD (i - 1) []) = true)
    (hnext : recordValid (data.getD (i + 1) []) = true) :
    repair_line data i = .ok
      ((toFloat ((data.getD (i - 1) []).getD 0 .bad) +
        toFloat ((data.getD (i + 1) []).getD 0 .bad)) / 2,
       (toFloat ((data.getD (i - 1) []).getD 1 .bad) +
        toFloat ((data.getD (i + 1) []).getD 1 .bad)) / 2) := by
  unfold repair_line
  rw [if_pos hint, if_pos (⟨hprev, hnext⟩ : _ ∧ _)]

lemma repair_line_err (data : List Record) (i : ℕ)
    (h : ¬((0 < i ∧ i < data.length - 1) ∧
        recordValid (data.getD (i - 1) []) = true ∧
        recordValid (data.getD (i + 1) []) = true)) :
    repair_line data i = .error (.unrepairableRecord (i + 1)) := by
  by_cases hint : 0 < i ∧ i < data.length - 1
  · have hval : ¬(recordValid (data.getD (i - 1) []) = true ∧
        recordValid (data.getD (i + 1) []) = true) := fun hv => h ⟨hint, hv⟩
    simp only [repair_line, if_pos hint]
    rw [if_neg]
    simpa using hval
  · simp [repair_line, hint]

/-! ### Claim theorems: record validation -/

/-- **C1** (confirmed).  Interpolated repair contract: a raw record whose two
fields do not both parse as well-formed numbers is repaired to the
arithmetic means of its neighbours' time and voltage values when it is
strictly interior and both neighbours contain exactly two well-formed
numeric fields (the accepted sample carries those means, up to the final
unit scaling); otherwise (boundary row, or either neighbour malformed)
validation fails with `UnrepairableRecordError` identifying the 1-based row
number. -/
theorem validate_interpolated_repair_contract :
    ∀ (data : List Record) (tu vu : ℚ) (i : ℕ), i < data.length →
      (data.getD i []).length = 2 →
      (data.getD i []).any (fun v => !is_float v) = true →
      ((((0 < i ∧ i < data.length - 1) ∧
          recordValid (data.getD (i - 1) []) = true ∧
          recordValid (data.getD (i + 1) []) = true) →
        (∀ j, j < data.length → j ≠ i → recordValid (data.getD j []) = true) →
        ∃ ts vs flag, parse_data data tu vu = .ok (ts, vs, flag) ∧
          ts.getD i 0 = (toFloat ((data.getD (i - 1) []).getD 0 .bad) +
                         toFloat ((data.getD (i + 1) []).getD 0 .bad)) / 2 * tu ∧
          vs.getD i 0 = (toFloat ((data.getD (i - 1) []).getD 1 .bad) +
                         toFloat ((data.getD (i + 1) []).getD 1 .bad)) / 2 * vu) ∧
       (¬((0 < i ∧ i < data.length - 1) ∧
          recordValid (data.getD (i - 1) []) = true ∧
          recordValid (data.getD (i + 1) []) = true) →
        (∀ j, j < i → recordValid (data.getD j []) = true) →
        parse_data data tu vu = .error (.unrepairableRecord (i + 1)))) := by
  intro data tu vu i hi hlen hbad
  constructor
  · rintro ⟨hint, hprev, hnext⟩ hothers
    have hall : ∀ j, j < data.length →
        ∃ tv, parse_line data (data.getD j []) (0 + j) = .ok tv := by
      intro j hj
      rcases eq_or_ne j i with rfl | hne
      · exact ⟨_, by rw [Nat.zero_add, parse_line_repair data _ j hlen hbad,
          repair_line_ok data j hint hprev hnext]⟩
      · exact ⟨_, by rw [Nat.zero_add, parse_line_of_valid data _ j (hothers j hj hne)]⟩
    obtain ⟨tvs, hloop, hlen', hchar⟩ := parseLoop_ok_of_all data data 0 hall
    have hchar_i := hchar i hi
    rw [Nat.zero_add, parse_line_repair data _ i hlen hbad,
      repair_line_ok data i hint hprev hnext] at hchar_i
    injection hchar_i with hmeans
    refine ⟨_, _, _, parse_data_of_loop_ok data tu vu tvs (by omega) hloop, ?_, ?_⟩
    · rw [getD_map_fst_mul tvs tu i (by omega), ← hmeans]
    · rw [getD_map_snd_mul tvs vu i (by omega), ← hmeans]
  · intro hnot hbefore
    have herr : parse_line data (data.getD i []) (0 + i) =
        .error (.unrepairableRecord (i + 1)) := by
      rw [Nat.zero_add, parse_line_repair data _ i hlen hbad, repair_line_err data i hnot]
    have hloop := parseLoop_err_of_first data data 0 i _ hi herr (by
      intro j' hj'
      exact ⟨_, by rw [Nat.zero_add, parse_line_of_valid data _ j' (hbefore j' hj')]⟩)
    exact parse_data_of_loop_err data tu vu _ (by omega) hloop

/-- Witness for C1: the record set `[("0","1"), (bad,bad), ("2","3")]` has one
interior malformed row; validation succeeds and the repaired sample is the
elementwise mean `(1, 2)` of the neighbours. -/
theorem validate_interpolated_repair_contract_witness :
    ∃ ts vs flag,
      parse_data [[Field.num 0, Field.num 1], [Field.bad, Field.bad],
        [Field.num 2, Field.num 3]] 1 1 = .ok (ts, vs, flag) ∧
      ts.getD 1 0 = 1 ∧ vs.getD 1 0 = 2 := by
  obtain ⟨ts, vs, flag, hpd, ht, hv⟩ :=
    (validate_interpolated_repair_contract
      [[Field.num 0, Field.num 1], [Field.bad, Field.bad], [Field.num 2, Field.num 3]]
      1 1 1 (by decide) (by decide) (by decide)).1
      (by decide)
      (by
        intro j hj hne
        have hj3 : j < 3 := by simpa using hj
        interval_cases j
        · decide
        · exact absurd rfl hne
        · decide)
  refine ⟨ts, vs, flag, hpd, ?_, ?_⟩
  · rw [ht]; norm_num [toFloat]
  · rw [hv]; norm_num [toFloat]

/-- **C2** (confirmed).  Input-shape failures: validation fails with
`EmptyInputError` on an empty record sequence; a record with a field count
other than two makes validation fail (no signal is produced), and when it is
the first offending record the failure is `MalformedRecordError` with the
correct 1-based row number. -/
theorem validate_input_shape_failures :
    (∀ tu vu : ℚ, parse_data [] tu vu = .error .emptyInput) ∧
    (∀ (data : List Record) (tu vu : ℚ) (i : ℕ), i < data.length →
      (data.getD i []).length ≠ 2 →
      (∃ e, parse_data data tu vu = .error e) ∧
      ((∀ j, j < i → ∃ tv, parse_line data (data.getD j []) j = .ok tv) →
        parse_data data tu vu = .error (.malformedRecord (i + 1)))) := by
  constructor
  · intro tu vu; simp [parse_data]
  · intro data tu vu i hi hlen
    have hne0 : data.length ≠ 0 := by omega
    have herr_line : parse_line data (data.getD i []) i =
        .error (.malformedRecord (i + 1)) := by
      unfold parse_line
      rw [if_pos hlen]
    constructor
    · obtain ⟨e, he⟩ := parseLoop_err_of_exists data data 0 i hi (by
        intro tv h
        rw [Nat.zero_add, herr_line] at h
        cases h)
      exact ⟨e, parse_data_of_loop_err data tu vu e hne0 he⟩
    · intro hbefore
      have hloop := parseLoop_err_of_first data data 0 i _ hi
        (by rw [Nat.zero_add]; exact herr_line)
        (by intro j' hj'; rw [Nat.zero_add]; exact hbefore j' hj')
      exact parse_data_of_loop_err data tu vu _ hne0 hloop

/-- Witness for C2: a single record with three fields fails with
`MalformedRecordError` naming row 1. -/
theorem validate_input_shape_failures_witness :
    parse_data [[Field.num 0, Field.num 1, Field.num 2]] (1 : ℚ) 1 =
      .error (.malformedRecord 1) :=
  (validate_input_shape_failures.2 [[Field.num 0, Field.num 1, Field.num 2]] 1 1 0
    (by decide) (by decide)).2 (fun j hj => absurd hj (Nat.not_lt_zero j))

/-- **C3** counterexample.  The claim says the out-of-range advisory fires
iff some post-scaling voltage magnitude is ≥ 300 mV.  With
`voltage_units = 1000` a raw voltage of 1/2 scales to 500 mV, yet the
advisory flag stays `false`: the code tests the raw pre-scaling value. -/
theorem advisory_threshold_counterexample :
    parse_data [[Field.num 0, Field.num (1 / 2)], [Field.num 1, Field.num (1 / 2)]]
        1 1000 = .ok ([0, 1], [500, 500], false) ∧
      (300 : ℚ) ≤ |(500 : ℚ)| := by
  constructor
  · norm_num [parse_data, parseLoop, parse_line, repair_line, recordValid, is_float,
      toFloat, abs_of_nonneg]
  · norm_num [abs_of_nonneg]

/-- **C3** (amended).  The advisory flag is true iff some sample's
*pre-scaling* raw voltage magnitude is ≥ 300; the advisory never aborts
processing: the returned signal still has one sample per input record. -/
theorem advisory_threshold_amended :
    ∀ (data : List Record) (tu vu : ℚ) (ts vs : List ℚ) (flag : Bool),
      parse_data data tu vu = .ok (ts, vs, flag) →
      ts.length = data.length ∧ vs.length = data.length ∧
      (flag = true ↔ ∃ j, j < data.length ∧ ∃ tv,
        parse_line data (data.getD j []) j = .ok tv ∧ 300 ≤ |tv.2|) := by
  intro data tu vu ts vs flag h
  obtain ⟨hne, tvs, hloop, hts, hvs, hflag⟩ := parse_data_ok_elim data tu vu ts vs flag h
  obtain ⟨hlen, hchar⟩ := parseLoop_ok_elim data data 0 tvs hloop
  subst hts hvs hflag
  refine ⟨by simp [hlen], by simp [hlen], ?_⟩
  rw [any_iff_exists_getD]
  constructor
  · rintro ⟨j, hj, hp⟩
    have hc := hchar j (by omega)
    rw [Nat.zero_add] at hc
    exact ⟨j, by omega, tvs.getD j (0, 0), hc, by simpa using hp⟩
  · rintro ⟨j, hj, tv, htv, habs⟩
    have hc := hchar j hj
    rw [Nat.zero_add] at hc
    rw [hc] at htv
    injection htv with htv'
    subst htv'
    exact ⟨j, by omega, by simpa using habs⟩

/-- Witness for the amended C3: a single raw voltage of 400 (units 3) sets
the advisory flag while the signal is returned in full. -/
theorem advisory_threshold_amended_witness :
    ([(0 : ℚ)] : List ℚ).length = [[Field.num 0, Field.num 400]].length ∧
    ([(1200 : ℚ)] : List ℚ).length = [[Field.num 0, Field.num 400]].length ∧
    (true = true ↔ ∃ j, j < [[Field.num 0, Field.num 400]].length ∧ ∃ tv,
      parse_line [[Field.num 0, Field.num 400]]
        ([[Field.num 0, Field.num 400]].getD j []) j = .ok tv ∧ 300 ≤ |tv.2|) :=
  advisory_threshold_amended [[Field.num 0, Field.num 400]] 2 3 [0] [1200] true (by
    norm_num [parse_data, parseLoop, parse_line, repair_line, is_float, toFloat,
      abs_of_nonneg])

/-! ### Helper lemmas about the periodicity estimator -/

/-- Modelled from the claim's description of the walk: the first index at
which the squared autocorrelation increases over its predecessor, or the
last index (the end of the walk) if it never increases. -/
def specAfterPeak : List ℚ → ℕ
  | [] => 0
  | [_] => 0
  | x :: y :: rest => if x < y then 1 else 1 + specAfterPeak (y :: rest)

/-- Position at which the `after_peak` scan of `get_peak_interval` breaks:
the minimal `k ≥ 1` with `l[k] > l[k-1]`, or `l.length` when the sequence
never increases. -/
def chainFirstInc : List ℚ → ℕ
  | [] => 0
  | [_] => 1
  | x :: y :: rest => if x < y then 1 else 1 + chainFirstInc (y :: rest)

lemma chainFirstInc_pos : ∀ (l : List ℚ), l ≠ [] → 1 ≤ chainFirstInc l := by
  intro l h
  cases l with
  | nil => exact absurd rfl h
  | cons x rest =>
    cases rest with
    | nil => simp [chainFirstInc]
    | cons y r =>
      rw [chainFirstInc]
      split
      · exact le_refl 1
      · omega

lemma chainFirstInc_le_length : ∀ (l : List ℚ), chainFirstInc l ≤ l.length := by
  intro l
  induction l with
  | nil => simp [chainFirstInc]
  | cons x rest ih =>
    cases rest with
    | nil => simp [chainFirstInc]
    | cons y r =>
      rw [chainFirstInc]
      split
      · simp
      · simp only [List.length_cons] at ih ⊢
        omega

lemma chainFirstInc_spec : ∀ (l : List ℚ), l ≠ [] →
    (chainFirstInc l < l.length ∧ specAfterPeak l = chainFirstInc l ∧
      1 ≤ chainFirstInc l ∧
      l.getD (chainFirstInc l - 1) 0 < l.getD (chainFirstInc l) 0) ∨
    (chainFirstInc l = l.length ∧ specAfterPeak l = l.length - 1) := by
  intro l
  induction l with
  | nil => intro h; exact absurd rfl h
  | cons x rest ih =>
    intro _
    cases rest with
    | nil => right; simp [chainFirstInc, specAfterPeak]
    | cons y r =>
      by_cases hxy : x < y
      · left
        refine ⟨?_, ?_, ?_, ?_⟩
        · simp only [chainFirstInc, if_pos hxy, List.length_cons]
          omega
        · simp only [chainFirstInc, specAfterPeak, if_pos hxy]
        · simp only [chainFirstInc, if_pos hxy]
          omega
        · simp only [chainFirstInc, if_pos hxy]
          simpa using hxy
      · rcases ih (by simp) with ⟨hlt, hspec, hpos, hinc⟩ | ⟨heq, hspec⟩
        · left
          simp only [chainFirstInc, specAfterPeak, if_neg hxy]
          obtain ⟨c, hc⟩ : ∃ c, chainFirstInc (y :: r) = c + 1 :=
            ⟨chainFirstInc (y :: r) - 1, by omega⟩
          rw [hc] at hlt hinc ⊢
          refine ⟨?_, by rw [hspec, hc], by omega, ?_⟩
          · simp only [List.length_cons] at hlt ⊢
            omega
          · have e1 : 1 + (c + 1) - 1 = c + 1 := by omega
            have e2 : 1 + (c + 1) = (c + 1) + 1 := by omega
            rw [e1, e2, List.getD_cons_succ, List.getD_cons_succ]
            simpa using hinc
        · right
          simp only [chainFirstInc, specAfterPeak, if_neg hxy]
          have hpos := chainFirstInc_pos (y :: r) (by simp)
          simp only [List.length_cons] at heq hspec hpos ⊢
          omega

lemma afterPeakAux_cons : ∀ (rest : List ℚ) (x prev : ℚ) (ap i : ℕ),
    afterPeakAux (x :: rest) prev ap i =
      if prev < x then ap else i + chainFirstInc (x :: rest) - 1 := by
  intro rest
  induction rest with
  | nil =>
    intro x prev ap i
    rw [afterPeakAux]
    by_cases hx : x ≤ prev
    · rw [if_pos hx, if_neg (not_lt.mpr hx), afterPeakAux]
      simp only [chainFirstInc]
      omega
    · rw [if_neg hx, if_pos (lt_of_not_le hx)]
  | cons y r ih =>
    intro x prev ap i
    rw [afterPeakAux]
    by_cases hx : x ≤ prev
    · rw [if_pos hx, ih y x i (i + 1), if_neg (not_lt.mpr hx)]
      by_cases hxy : x < y
      · rw [if_pos hxy]
        simp only [chainFirstInc, if_pos hxy]
        omega
      · rw [if_neg hxy]
        simp only [chainFirstInc, if_neg hxy]
        omega
    · rw [if_neg hx, if_pos (lt_of_not_le hx)]

lemma after_peak_eq_chain : ∀ (l : List ℚ), l ≠ [] →
    after_peak l = chainFirstInc l - 1 := by
  intro l h
  cases l with
  | nil => exact absurd rfl h
  | cons x rest =>
    rw [after_peak, List.headD_cons, afterPeakAux_cons, if_neg (lt_irrefl x)]
    omega

lemma le_listMax : ∀ (l : List ℚ) (x : ℚ), x ∈ l → x ≤ listMax l := by
  intro l
  induction l with
  | nil => intro x hx; simp at hx
  | cons a rest ih =>
    intro x hx
    cases rest with
    | nil =>
      simp only [List.mem_singleton] at hx
      simp [listMax, hx]
    | cons b r =>
      rw [listMax]
      rcases List.mem_cons.mp hx with rfl | hx'
      · exact le_max_left _ _
      · exact le_trans (ih x hx') (le_max_right _ _)

lemma listMax_cons_of_lt (x : ℚ) (l : List ℚ) (y : ℚ) (hy : y ∈ l) (hxy : x < y) :
    listMax (x :: l) = listMax l := by
  cases l with
  | nil => simp at hy
  | cons b r =>
    rw [listMax, max_eq_right]
    exact le_of_lt (lt_of_lt_of_le hxy (le_listMax _ y hy))

lemma argmax_cons_of_lt (x : ℚ) (l : List ℚ) (y : ℚ) (hy : y ∈ l) (hxy : x < y) :
    argmax (x :: l) = argmax l + 1 := by
  have hmax : listMax (x :: l) = listMax l := listMax_cons_of_lt x l y hy hxy
  rw [argmax, argmax, hmax, firstIdxSat]
  have hx : ¬(decide (listMax l ≤ x) = true) := by
    simp only [decide_eq_true_eq, not_le]
    exact lt_of_lt_of_le hxy (le_listMax l y hy)
  rw [if_neg hx]

lemma drop_eq_getD_cons {α : Type} (d : α) : ∀ (l : List α) (n : ℕ), n < l.length →
    l.drop n = l.getD n d :: l.drop (n + 1) := by
  intro l
  induction l with
  | nil => intro n hn; simp at hn
  | cons a rest ih =>
    intro n hn
    cases n with
    | zero => simp
    | succ n =>
      have := ih n (by simpa using Nat.lt_of_succ_lt_succ hn)
      simpa using this

lemma sqCor_ne_nil (data : List ℚ) (h : data ≠ []) : sqCor data ≠ [] := by
  simp only [sqCor, ne_eq, List.map_eq_nil_iff, List.range_eq_nil, List.length_eq_zero]
  exact h

lemma length_sqCor (data : List ℚ) : (sqCor data).length = data.length := by
  simp [sqCor]

/-! ### Claim theorems: periodicity estimation -/

/-- **C4** (confirmed).  `get_peak_interval` returns exactly the pair
described by the claim: with `after_peak` read as the first index at which
the squared autocorrelation increases over its predecessor (or the end of
the walk), `interval_location` is `after_peak` plus the argmax of the
squared values from `after_peak` on, and the estimated interval is the
`time` value at `interval_location`.  (The code's internal scan variable
stops one position earlier when an increase exists, but the argmax over the
sub-range compensates exactly.) -/
theorem estimate_interval_spec :
    ∀ (time data : List ℚ), data ≠ [] →
      get_peak_interval time data =
        (time.getD (specAfterPeak (sqCor data) +
            argmax ((sqCor data).drop (specAfterPeak (sqCor data)))) 0,
         specAfterPeak (sqCor data) +
            argmax ((sqCor data).drop (specAfterPeak (sqCor data)))) := by
  intro time data hne
  have hsq : sqCor data ≠ [] := sqCor_ne_nil data hne
  have key : after_peak (sqCor data) + argmax ((sqCor data).drop (after_peak (sqCor data))) =
      specAfterPeak (sqCor data) + argmax ((sqCor data).drop (specAfterPeak (sqCor data))) := by
    rcases chainFirstInc_spec (sqCor data) hsq with ⟨hlt, hspec, hpos, hinc⟩ | ⟨heq, hspec⟩
    · have hap := after_peak_eq_chain (sqCor data) hsq
      have hc1 : chainFirstInc (sqCor data) - 1 < (sqCor data).length := by omega
      have hdrop : (sqCor data).drop (chainFirstInc (sqCor data) - 1) =
          (sqCor data).getD (chainFirstInc (sqCor data) - 1) 0 ::
            (sqCor data).drop (chainFirstInc (sqCor data)) := by
        have h := drop_eq_getD_cons (0 : ℚ) (sqCor data) (chainFirstInc (sqCor data) - 1) hc1
        rwa [Nat.sub_add_cancel hpos] at h
      have hmem : (sqCor data).getD (chainFirstInc (sqCor data)) 0 ∈
          (sqCor data).drop (chainFirstInc (sqCor data)) := by
        rw [drop_eq_getD_cons (0 : ℚ) (sqCor data) (chainFirstInc (sqCor data)) hlt]
        exact List.mem_cons_self _ _
      rw [hap, hspec, hdrop, argmax_cons_of_lt _ _ _ hmem hinc]
      omega
    · rw [after_peak_eq_chain (sqCor data) hsq, heq, hspec]
  simp only [get_peak_interval]
  rw [key]

/-- Witness for C4: on the voltage segment `[1,0,1,0,1]` the squared
autocorrelation is `[9,0,4,0,1]`, the spec's `after_peak` is 2, the argmax
from there is at offset 0, and the estimated interval is `time[2] = 2`. -/
theorem estimate_interval_spec_witness :
    get_peak_interval [0, 1, 2, 3, 4] [1, 0, 1, 0, 1] = (2, 2) := by
  rw [estimate_interval_spec [0, 1, 2, 3, 4] [1, 0, 1, 0, 1] (by simp)]
  norm_num [specAfterPeak, sqCor, dotShift, List.range_succ, argmax, listMax, firstIdxSat]

/-- **C8** (confirmed).  For every non-empty voltage sequence, `after_peak`
never exceeds the last index of the squared autocorrelation, so the argmax
search range starting there has length at least 1. -/
theorem after_peak_search_range_nonempty :
    ∀ (data : List ℚ), data ≠ [] →
      after_peak (sqCor data) < (sqCor data).length ∧
      1 ≤ ((sqCor data).drop (after_peak (sqCor data))).length := by
  intro data hne
  have hsq : sqCor data ≠ [] := sqCor_ne_nil data hne
  have h1 := after_peak_eq_chain (sqCor data) hsq
  have h2 := chainFirstInc_le_length (sqCor data)
  have h3 := chainFirstInc_pos (sqCor data) hsq
  have hlen : (sqCor data).length ≠ 0 := by
    simpa [List.length_eq_zero] using hsq
  constructor
  · omega
  · rw [List.length_drop]
    omega

/-- Witness for C8: the constant segment `[1,1,1]` has a perfectly
monotonic (never increasing) squared autocorrelation, and the search range
still has length ≥ 1. -/
theorem after_peak_search_range_nonempty_witness :
    after_peak (sqCor [1, 1, 1]) < (sqCor [1, 1, 1]).length ∧
    1 ≤ ((sqCor [1, 1, 1]).drop (after_peak (sqCor [1, 1, 1]))).length :=
  after_peak_search_range_nonempty [1, 1, 1] (by simp)

/-! ### Helper lemmas about the windowed heart rate -/

lemma meanHrAux_eq_map (time voltage : List ℚ) (ws : ℚ) :
    ∀ (rest : List (ℕ × ℚ)) (pidx : ℕ) (pt : ℚ),
      meanHrAux time voltage ws rest pidx pt =
        (windowsAux ws rest pidx pt).map (fun w =>
          round5 (60 / (get_peak_interval time
            ((voltage.drop w.1).take (w.2 - w.1))).1)) := by
  intro rest
  induction rest with
  | nil => intro pidx pt; rfl
  | cons p rest ih =>
    intro pidx pt
    obtain ⟨i, t⟩ := p
    rw [meanHrAux, windowsAux]
    by_cases h : ws + pt ≤ t
    · rw [if_pos h, if_pos h, List.map_cons, ih]
    · rw [if_neg h, if_neg h, ih]

lemma get_mean_hr_eq_map (time voltage : List ℚ) (ws : ℚ) :
    get_mean_hr time voltage ws = (windows time ws).map (fun w =>
      round5 (60 / (get_peak_interval time
        ((voltage.drop w.1).take (w.2 - w.1))).1)) := by
  rw [get_mean_hr, windows, meanHrAux_eq_map]

lemma windowsAux_nil_of_small (ws : ℚ) :
    ∀ (rest : List (ℕ × ℚ)) (pidx : ℕ) (pt : ℚ),
      (∀ p ∈ rest, p.2 < ws + pt) → windowsAux ws rest pidx pt = [] := by
  intro rest
  induction rest with
  | nil => intro pidx pt _; rfl
  | cons p rest ih =>
    intro pidx pt h
    obtain ⟨i, t⟩ := p
    rw [windowsAux, if_neg (not_le.mpr (h (i, t) (List.mem_cons_self _ _)))]
    exact ih pidx pt (fun q hq => h q (List.mem_cons_of_mem _ hq))

lemma snd_mem_of_mem_enumFrom :
    ∀ (l : List ℚ) (n : ℕ) (p : ℕ × ℚ), p ∈ l.enumFrom n → p.2 ∈ l := by
  intro l
  induction l with
  | nil => intro n p hp; simp at hp
  | cons a rest ih =>
    intro n p hp
    rw [List.enumFrom_cons] at hp
    rcases List.mem_cons.mp hp with rfl | hp'
    · exact List.mem_cons_self _ _
    · exact List.mem_cons_of_mem _ (ih (n + 1) p hp')

/-! ### Claim theorems: windowed heart rate -/

/-- **C6** (confirmed).  `get_mean_hr` closes a window whenever the running
time reaches or exceeds the window start plus the window size, emits
`round5 (60 / interval)` of the window's voltage slice for each closed
window (one rate per complete window, the trailing partial window
discarded), and returns the empty sequence for a signal shorter than one
window. -/
theorem windowed_rates_spec :
    ∀ (time voltage : List ℚ) (ws : ℚ),
      get_mean_hr time voltage ws = (windows time ws).map (fun w =>
        round5 (60 / (get_peak_interval time
          ((voltage.drop w.1).take (w.2 - w.1))).1)) ∧
      (get_mean_hr time voltage ws).length = (windows time ws).length ∧
      ((∀ t ∈ time, t < ws + time.headD 0) → get_mean_hr time voltage ws = []) := by
  intro time voltage ws
  refine ⟨get_mean_hr_eq_map time voltage ws, ?_, ?_⟩
  · rw [get_mean_hr_eq_map, List.length_map]
  · intro h
    rw [get_mean_hr, List.enum]
    rw [meanHrAux_eq_map, windowsAux_nil_of_small]
    · rfl
    · intro p hp
      exact h p.2 (snd_mem_of_mem_enumFrom time 0 p hp)

/-- Witness for C6: a 3-sample recording spanning 2 seconds with a 10-second
window yields no complete window and hence no rates. -/
theorem windowed_rates_spec_witness :
    get_mean_hr [0, 1, 2] [1, 2, 1] 10 = [] :=
  (windowed_rates_spec [0, 1, 2] [1, 2, 1] 10).2.2 (by
    intro t ht
    fin_cases ht <;> norm_num)

/-- **C10** (confirmed).  `get_peak_interval` always indexes the full
recording's time array: the returned location depends only on the voltage
segment; the returned interval is the absolute value `time[interval_loc]`
(not a difference relative to a slice's start); every windowed rate is
`60 / time[loc_w]` with `loc_w` the window-relative lag index; and on a
recording whose time axis starts at 5 the peak interval (7) exceeds the
duration (2). -/
theorem interval_uses_global_time :
    (∀ (time time' data : List ℚ),
      (get_peak_interval time data).2 = (get_peak_interval time' data).2) ∧
    (∀ (time data : List ℚ),
      (get_peak_interval time data).1 =
        time.getD (get_peak_interval time data).2 0) ∧
    (∀ (time voltage : List ℚ) (ws : ℚ),
      get_mean_hr time voltage ws = (windows time ws).map (fun w =>
        round5 (60 / time.getD (get_peak_interval time
          ((voltage.drop w.1).take (w.2 - w.1))).2 0))) ∧
    (∃ d p hr, analyze [[Field.num 5, Field.num 1], [Field.num 6, Field.num 1],
        [Field.num 7, Field.num 1]] 1 1 10 = .ok (d, p, hr) ∧ d < p) := by
  refine ⟨fun time time' data => rfl, fun time data => rfl, ?_, ?_⟩
  · intro time voltage ws
    exact get_mean_hr_eq_map time voltage ws
  · refine ⟨2, 7, [], ?_, by norm_num⟩
    norm_num [analyze, parse_data, parseLoop, parse_line, is_float, toFloat,
      duration, get_peak_interval, sqCor, dotShift, List.range_succ, after_peak,
      afterPeakAux, argmax, listMax, firstIdxSat, get_mean_hr, meanHrAux, List.enum,
      abs_of_nonneg]

/-! ### Helper lemmas about beat de-duplication -/

lemma scanIdx_some (p : ℕ → Bool) :
    ∀ (l : List ℕ) (k : ℕ), scanIdx p l = some k →
      k < l.length ∧ p (l.getD k 0) = true := by
  intro l
  induction l with
  | nil => intro k h; simp [scanIdx] at h
  | cons x rest ih =>
    intro k h
    rw [scanIdx] at h
    by_cases hp : p x
    · rw [if_pos hp] at h
      injection h with h
      subst h
      exact ⟨by simp, by simpa using hp⟩
    · rw [if_neg hp] at h
      cases hsc : scanIdx p rest with
      | none => rw [hsc] at h; simp at h
      | some k' =>
        rw [hsc] at h
        simp at h
        subst h
        obtain ⟨h1, h2⟩ := ih k' hsc
        exact ⟨by simpa using Nat.succ_lt_succ h1, by simpa using h2⟩

lemma getD_drop_nat : ∀ (l : List ℕ) (i j : ℕ),
    (l.drop i).getD j 0 = l.getD (i + j) 0 := by
  intro l
  induction l with
  | nil => intro i j; simp
  | cons a rest ih =>
    intro i j
    cases i with
    | zero => simp
    | succ i =>
      have e : i + 1 + j = (i + j) + 1 := by omega
      rw [List.drop_succ_cons, ih i j, e, List.getD_cons_succ]

lemma nextKept_lb (peaks : List ℕ) (thre : ℤ) (current i1 : ℕ)
    (h1 : i1 ≤ peaks.length - 1) : i1 ≤ nextKept peaks thre current i1 := by
  rw [nextKept]
  cases hsc : scanIdx (fun x => decide (thre < (x : ℤ) - (current : ℤ))) (peaks.drop i1) with
  | none => exact h1
  | some k => exact Nat.le_add_right i1 k

lemma nextKept_cases (peaks : List ℕ) (thre : ℤ) (current i1 : ℕ) :
    (nextKept peaks thre current i1 < peaks.length ∧
     thre < (peaks.getD (nextKept peaks thre current i1) 0 : ℤ) - (current : ℤ) ∧
     i1 ≤ nextKept peaks thre current i1) ∨
    nextKept peaks thre current i1 = peaks.length - 1 := by
  rw [nextKept]
  cases hsc : scanIdx (fun x => decide (thre < (x : ℤ) - (current : ℤ))) (peaks.drop i1) with
  | none => right; rfl
  | some k =>
    obtain ⟨hk, hp⟩ := scanIdx_some _ _ _ hsc
    left
    rw [List.length_drop] at hk
    rw [getD_drop_nat] at hp
    simp only [decide_eq_true_eq] at hp
    refine ⟨?_, ?_, ?_⟩
    · show i1 + k < peaks.length
      omega
    · show thre < (peaks.getD (i1 + k) 0 : ℤ) - (current : ℤ)
      exact hp
    · show i1 ≤ i1 + k
      omega

lemma dedupAux_stop (peaks : List ℕ) (thre : ℤ) (fuel i : ℕ)
    (h : ¬ i < peaks.length - 1) : dedupAux peaks thre fuel i = [] := by
  cases fuel with
  | zero => rfl
  | succ fuel => rw [dedupAux, if_neg h]

lemma dedupAux_length (peaks : List ℕ) (thre : ℤ) :
    ∀ (fuel i : ℕ), (dedupAux peaks thre fuel i).length ≤ peaks.length - 1 - i := by
  intro fuel
  induction fuel with
  | zero => intro i; simp [dedupAux]
  | succ fuel ih =>
    intro i
    by_cases h : i < peaks.length - 1
    · rw [dedupAux, if_pos h, List.length_cons]
      have hnk : i + 1 ≤ nextKept peaks thre (peaks.getD i 0) (i + 1) :=
        nextKept_lb peaks thre _ (i + 1) (by omega)
      have hrec := ih (nextKept peaks thre (peaks.getD i 0) (i + 1))
      omega
    · rw [dedupAux_stop peaks thre _ i h]
      simp

lemma dedupAux_mem (peaks : List ℕ) (thre : ℤ) :
    ∀ (fuel i : ℕ) (x : ℕ), x ∈ dedupAux peaks thre fuel i →
      ∃ j, i ≤ j ∧ j < peaks.length - 1 ∧ x = peaks.getD j 0 := by
  intro fuel
  induction fuel with
  | zero => intro i x hx; simp [dedupAux] at hx
  | succ fuel ih =>
    intro i x hx
    by_cases h : i < peaks.length - 1
    · rw [dedupAux, if_pos h] at hx
      rcases List.mem_cons.mp hx with rfl | hx'
      · exact ⟨i, le_refl i, h, rfl⟩
      · obtain ⟨j, hj1, hj2, hj3⟩ := ih _ x hx'
        have hnk : i + 1 ≤ nextKept peaks thre (peaks.getD i 0) (i + 1) :=
          nextKept_lb peaks thre _ (i + 1) (by omega)
        exact ⟨j, by omega, hj2, hj3⟩
    · rw [dedupAux_stop peaks thre _ i h] at hx
      simp at hx

lemma dedupAux_sublist (peaks : List ℕ) (thre : ℤ) :
    ∀ (fuel i : ℕ), List.Sublist (dedupAux peaks thre fuel i) (peaks.drop i) := by
  intro fuel
  induction fuel with
  | zero => intro i; simp [dedupAux]
  | succ fuel ih =>
    intro i
    by_cases h : i < peaks.length - 1
    · rw [dedupAux, if_pos h]
      have hi : i < peaks.length := by omega
      rw [drop_eq_getD_cons 0 peaks i hi]
      refine List.Sublist.cons₂ _ ?_
      have hnk : i + 1 ≤ nextKept peaks thre (peaks.getD i 0) (i + 1) :=
        nextKept_lb peaks thre _ (i + 1) (by omega)
      exact (ih _).trans (List.drop_sublist_drop_left peaks hnk)
    · rw [dedupAux_stop peaks thre _ i h]
      simp

lemma sorted_getD_le (peaks : List ℕ) (hs : peaks.Sorted (· ≤ ·)) (j j' : ℕ)
    (hjj : j ≤ j') (hj' : j' < peaks.length) :
    peaks.getD j 0 ≤ peaks.getD j' 0 := by
  have hj : j < peaks.length := by omega
  rw [List.getD_eq_get peaks 0 hj, List.getD_eq_get peaks 0 hj']
  exact hs.rel_get_of_le (Fin.mk_le_mk.mpr hjj)

lemma sorted_getD_lt (peaks : List ℕ) (hs : peaks.Sorted (· < ·)) (j j' : ℕ)
    (hjj : j < j') (hj' : j' < peaks.length) :
    peaks.getD j 0 < peaks.getD j' 0 := by
  rw [List.getD_eq_get peaks 0 (by omega), List.getD_eq_get peaks 0 hj']
  exact hs.rel_get_of_lt (Fin.mk_lt_mk.mpr hjj)

lemma dedupAux_pairwise (peaks : List ℕ) (thre : ℤ) (hs : peaks.Sorted (· ≤ ·)) :
    ∀ (fuel i : ℕ),
      List.Pairwise (fun a b : ℕ => thre < (b : ℤ) - (a : ℤ)) (dedupAux peaks thre fuel i) := by
  intro fuel
  induction fuel with
  | zero => intro i; simp [dedupAux]
  | succ fuel ih =>
    intro i
    by_cases h : i < peaks.length - 1
    · rw [dedupAux, if_pos h]
      refine List.Pairwise.cons ?_ (ih _)
      intro y hy
      obtain ⟨j, hj1, hj2, rfl⟩ := dedupAux_mem peaks thre fuel _ y hy
      rcases nextKept_cases peaks thre (peaks.getD i 0) (i + 1) with ⟨hlt, hthre, _⟩ | heq
      · have hmono := sorted_getD_le peaks hs
          (nextKept peaks thre (peaks.getD i 0) (i + 1)) j hj1 (by omega)
        have hcast : (peaks.getD (nextKept peaks thre (peaks.getD i 0) (i + 1)) 0 : ℤ) ≤
            (peaks.getD j 0 : ℤ) := by exact_mod_cast hmono
        omega
      · rw [heq] at hj1
        omega
    · rw [dedupAux_stop peaks thre _ i h]
      simp

lemma getLastD_eq_getD_aux : ∀ (l : List ℕ) (d : ℕ), l ≠ [] →
    l.getLastD d = l.getD (l.length - 1) d := by
  intro l
  induction l with
  | nil => intro d h; exact absurd rfl h
  | cons a rest ih =>
    intro d _
    cases rest with
    | nil => rfl
    | cons b r =>
      rw [List.getLastD_cons, ih a (by simp)]
      have e : (a :: b :: r).length - 1 = ((b :: r).length - 1) + 1 := by
        simp only [List.length_cons]
        omega
      rw [e, List.getD_cons_succ]
      have hb : (b :: r).length - 1 < (b :: r).length := by
        simp only [List.length_cons]
        omega
      rw [List.getD_eq_get _ a hb, List.getD_eq_get _ d hb]

/-! ### Claim theorems: beat de-duplication -/

/-- **C5** counterexample.  The claim asserts that for every non-empty
candidate list the first candidate is kept; for a singleton candidate list
the `while i < num_peaks - 1` loop never runs, so nothing is kept. -/
theorem dedup_first_kept_counterexample :
    dedup [7] 2 = [] ∧ (7 : ℕ) ∉ dedup [7] 2 := by
  constructor
  · rfl
  · intro h
    simp [dedup, dedupAux] at h

/-- **C5** (amended).  The walk keeps a candidate, skips every subsequent
candidate within `thre` samples of it, and continues at the first candidate
beyond that threshold — except that the final candidate is never kept.  For
a sorted candidate list of at least two candidates the first candidate is
kept, the kept candidates form a subsequence of the candidate list, and no
two kept candidates are `thre` samples or fewer apart. -/
theorem dedup_separation_amended :
    ∀ (peaks : List ℕ) (thre : ℤ), peaks.Sorted (· < ·) →
      (2 ≤ peaks.length → ∃ rest, dedup peaks thre = peaks.getD 0 0 :: rest) ∧
      List.Sublist (dedup peaks thre) peaks ∧
      List.Pairwise (fun a b : ℕ => thre < (b : ℤ) - (a : ℤ)) (dedup peaks thre) := by
  intro peaks thre hs
  refine ⟨?_, ?_, ?_⟩
  · intro h2
    cases hfl : peaks.length with
    | zero => omega
    | succ f =>
      rw [dedup, hfl, dedupAux, if_pos (by omega)]
      exact ⟨_, rfl⟩
  · rw [dedup]
    simpa using dedupAux_sublist peaks thre peaks.length 0
  · rw [dedup]
    exact dedupAux_pairwise peaks thre (hs.imp le_of_lt) peaks.length 0

/-- Witness for the amended C5: candidates `[0, 10, 12, 30]` with threshold
5 keep the first candidate, and all kept candidates are more than 5 apart
(the kept list is `[0, 10]`). -/
theorem dedup_separation_amended_witness :
    (∃ rest, dedup [0, 10, 12, 30] 5 = 0 :: rest) ∧
    List.Pairwise (fun a b : ℕ => (5 : ℤ) < (b : ℤ) - (a : ℤ)) (dedup [0, 10, 12, 30] 5) := by
  obtain ⟨h1, _, h3⟩ := dedup_separation_amended [0, 10, 12, 30] 5 (by decide)
  exact ⟨by simpa using h1 (by norm_num), h3⟩

/-- **C9** (confirmed).  The de-duplication loop never keeps the final
candidate: for a non-empty strictly sorted candidate list of `n` peaks the
kept list has at most `n - 1` entries and never contains the last
candidate, and a singleton candidate list yields no kept peaks and
`num_beats = 0`. -/
theorem dedup_never_keeps_last :
    ∀ (peaks : List ℕ) (thre : ℤ), peaks ≠ [] → peaks.Sorted (· < ·) →
      (dedup peaks thre).length ≤ peaks.length - 1 ∧
      peaks.getLastD 0 ∉ dedup peaks thre ∧
      (peaks.length = 1 → dedup peaks thre = [] ∧ numBeats peaks thre = 0) := by
  intro peaks thre hne hs
  have hlast : peaks.getLastD 0 = peaks.getD (peaks.length - 1) 0 :=
    getLastD_eq_getD_aux peaks 0 hne
  refine ⟨?_, ?_, ?_⟩
  · rw [dedup]
    have := dedupAux_length peaks thre peaks.length 0
    omega
  · rw [dedup, hlast]
    intro hmem
    obtain ⟨j, _, hj2, hj3⟩ := dedupAux_mem peaks thre peaks.length 0 _ hmem
    have := sorted_getD_lt peaks hs j (peaks.length - 1) hj2 (by omega)
    omega
  · intro h1
    have h0 : dedup peaks thre = [] := by
      rw [dedup]
      exact dedupAux_stop peaks thre _ 0 (by omega)
    exact ⟨h0, by rw [numBeats, h0]; rfl⟩

/-- Witness for C9: the singleton candidate list `[5]` yields no kept peaks
and `num_beats = 0`. -/
theorem dedup_never_keeps_last_witness :
    (dedup [5] 3).length ≤ 0 ∧ (5 : ℕ) ∉ dedup [5] 3 ∧
    (dedup [5] 3 = [] ∧ numBeats [5] 3 = 0) := by
  obtain ⟨h1, h2, h3⟩ := dedup_never_keeps_last [5] 3 (by simp) (by decide)
  exact ⟨by simpa using h1, by simpa using h2, h3 rfl⟩

/-! ### Helper lemmas about unit scaling -/

lemma getD_map_mul_q : ∀ (l : List ℚ) (k : ℚ) (n : ℕ),
    (l.map (fun x => k * x)).getD n 0 = k * l.getD n 0 := by
  intro l
  induction l with
  | nil => intro k n; simp
  | cons a rest ih =>
    intro k n
    cases n with
    | zero => simp
    | succ n => simpa using ih k n

lemma headD_map_mul (l : List ℚ) (k : ℚ) (h : l ≠ []) :
    (l.map (fun x => k * x)).headD 0 = k * l.headD 0 := by
  cases l with
  | nil => exact absurd rfl h
  | cons a rest => simp

lemma getLastD_map_mul : ∀ (l : List ℚ) (k : ℚ), l ≠ [] → ∀ (d d' : ℚ),
    (l.map (fun x => k * x)).getLastD d = k * l.getLastD d' := by
  intro l
  induction l with
  | nil => intro k h; exact absurd rfl h
  | cons a rest ih =>
    intro k _ d d'
    cases rest with
    | nil => simp
    | cons b r =>
      rw [List.map_cons, List.getLastD_cons, List.getLastD_cons]
      exact ih k (by simp) _ _

/-! ### Claim theorems: time-unit scaling -/

/-- **C7** counterexample.  Multiplying `time_units` by 3 scales `duration`
(5 to 15) and `peak_interval` (5 to 15), but `mean_hr_bpm` is not scaled by
1/3: the base run closes no 10-second window (no rates), while the scaled
run closes one and reports a rate, so the claimed elementwise 1/k
correspondence fails. -/
theorem time_scaling_counterexample :
    analyze [[Field.num 0, Field.num 1], [Field.num 1, Field.num 1],
        [Field.num 2, Field.num 1], [Field.num 3, Field.num 1],
        [Field.num 4, Field.num 1], [Field.num 5, Field.num 1]] 1 1 10 =
      .ok (5, 5, []) ∧
    analyze [[Field.num 0, Field.num 1], [Field.num 1, Field.num 1],
        [Field.num 2, Field.num 1], [Field.num 3, Field.num 1],
        [Field.num 4, Field.num 1], [Field.num 5, Field.num 1]] 3 1 10 =
      .ok (15, 15, [666667 / 100000]) ∧
    ((666667 / 100000 : ℚ) :: ([] : List ℚ)) ≠
      List.map (fun x : ℚ => x * (1 / 3)) ([] : List ℚ) := by
  refine ⟨?_, ?_, by simp⟩
  · norm_num [analyze, parse_data, parseLoop, parse_line, is_float, toFloat,
      duration, get_peak_interval, sqCor, dotShift, List.range_succ, after_peak,
      afterPeakAux, argmax, listMax, firstIdxSat, get_mean_hr, meanHrAux,
      List.enum, abs_of_nonneg]
  · norm_num [analyze, parse_data, parseLoop, parse_line, is_float, toFloat,
      duration, get_peak_interval, sqCor, dotShift, List.range_succ, after_peak,
      afterPeakAux, argmax, listMax, firstIdxSat, get_mean_hr, meanHrAux,
      List.enum, round5, roundHalfEven, abs_of_nonneg]

/-- **C7** (amended).  Multiplying `time_units` by `k` multiplies every
sample time, the `duration`, and the `peak_interval` by `k`, and leaves the
interval location, voltages, and advisory flag unchanged; the `mean_hr_bpm`
sequence is not in general scaled by `1/k`, because the window partition is
computed from the scaled times. -/
theorem time_scaling_amended :
    ∀ (data : List Record) (tu vu k : ℚ) (ts vs : List ℚ) (flag : Bool),
      parse_data data tu vu = .ok (ts, vs, flag) →
      parse_data data (k * tu) vu = .ok (ts.map (fun x => k * x), vs, flag) ∧
      duration (ts.map (fun x => k * x)) = k * duration ts ∧
      (get_peak_interval (ts.map (fun x => k * x)) vs).1 =
        k * (get_peak_interval ts vs).1 ∧
      (get_peak_interval (ts.map (fun x => k * x)) vs).2 =
        (get_peak_interval ts vs).2 := by
  intro data tu vu k ts vs flag h
  obtain ⟨hne, tvs, hloop, hts, hvs, hflag⟩ := parse_data_ok_elim data tu vu ts vs flag h
  obtain ⟨hlen, _⟩ := parseLoop_ok_elim data data 0 tvs hloop
  have hts_ne : ts ≠ [] := by
    subst hts
    simp only [ne_eq, List.map_eq_nil_iff]
    intro hnil
    rw [hnil] at hlen
    exact hne (by simpa using hlen.symm)
  refine ⟨?_, ?_, ?_, rfl⟩
  · have hmap : (tvs.map Prod.fst).map (fun x => x * (k * tu)) =
        ((tvs.map Prod.fst).map (fun x => x * tu)).map (fun x => k * x) := by
      simp only [List.map_map]
      exact List.map_congr_left (fun x _ => by
        show x.1 * (k * tu) = k * (x.1 * tu)
        ring)
    rw [parse_data_of_loop_ok data (k * tu) vu tvs hne hloop, hts, hvs, hflag, hmap]
  · rw [duration, duration, getLastD_map_mul ts k hts_ne 0 0,
      headD_map_mul ts k hts_ne, mul_sub]
  · show (ts.map (fun x => k * x)).getD _ 0 = k * ts.getD _ 0
    exact getD_map_mul_q ts k _

/-- Witness for the amended C7: scaling the two-sample recording
`[(1,1),(2,1)]` by `k = 3` triples the sample times, the duration, and the
peak interval. -/
theorem time_scaling_amended_witness :
    parse_data [[Field.num 1, Field.num 1], [Field.num 2, Field.num 1]] (3 * 1) 1 =
      .ok ([1, 2].map (fun x => 3 * x), [1, 1], false) ∧
    duration ([1, 2].map (fun x => 3 * x)) = 3 * duration [1, 2] ∧
    (get_peak_interval ([1, 2].map (fun x => 3 * x)) [1, 1]).1 =
      3 * (get_peak_interval [1, 2] [1, 1]).1 ∧
    (get_peak_interval ([1, 2].map (fun x => 3 * x)) [1, 1]).2 =
      (get_peak_interval [1, 2] [1, 1]).2 :=
  time_scaling_amended [[Field.num 1, Field.num 1], [Field.num 2, Field.num 1]]
    1 1 3 [1, 2] [1, 1] false (by
      norm_num [parse_data, parseLoop, parse_line, is_float, toFloat, abs_of_nonneg])

end HRM
